import Mathlib

/-!
Verification of the `gore/eval` source-partitioning pipeline: the lexical
chunker, the line-oriented partition state tracker, import inference, and the
compile-execute-repair loop, embedded shallowly over `List Char`.

The external toolchain invocation (`run`) is modelled as an oracle parameter;
the number of oracle invocations is threaded explicitly so that bounded-retry
properties can be stated.
-/

set_option linter.unusedVariables false

/-- Characters that are written via their code point to keep source scanning
simple: backquote, double quote, single quote, and the two braces. -/
def backquote : Char := Char.ofNat 96

def dquote : Char := Char.ofNat 34

def squote : Char := Char.ofNat 39

def lbrace : Char := Char.ofNat 123

def rbrace : Char := Char.ofNat 125

/-- Chunk kind: `KSTRING`, `KCOMMENT` and `KTEXT`, as in the source constants. -/
inductive Kind where
  | KSTRING
  | KCOMMENT
  | KTEXT
deriving DecidableEq, Repr

open Kind

/-- A Chunk is a stretch of text: a comment, a string (possibly multiline),
or plain text, together with the number of line breaks recorded for it. -/
structure Chunk where
  kind : Kind
  text : List Char
  numNL : Nat
deriving DecidableEq, Repr

/-- Modelled from the spec: the repository's `Scanner` (its file is not among
the given sources; only callers are). The spec describes it as "the full input
text and a mutable read cursor" supporting mark/slice (chunks are contiguous
slices of the input), rune reads failing exactly at end of input, pushback of
one rune, and reset to a previous position. `pos` is the index of the next
character to read; `Slice mark` is the text between `mark` and the cursor.
The source's scanner counts positions from the end of the input (its
`Reset(slashMark + 1)` rewinds by one more character); here positions count
from the start, so that rewind is written `Reset (slashMark - 1)`. -/
structure Scanner where
  input : List Char
  pos : Nat

def NewScanner (code : List Char) : Scanner := { input := code, pos := 0 }

def Scanner.Mark (sc : Scanner) : Nat := sc.pos

def Scanner.Pos (sc : Scanner) : Nat := sc.pos

def Scanner.ReadRune (sc : Scanner) : Option (Char × Scanner) :=
  match sc.input.drop sc.pos with
  | [] => none
  | c :: _ => some (c, { sc with pos := sc.pos + 1 })

def Scanner.UnreadRune (sc : Scanner) : Scanner := { sc with pos := sc.pos - 1 }

def Scanner.Reset (sc : Scanner) (p : Nat) : Scanner := { sc with pos := p }

def Scanner.Slice (sc : Scanner) (mark : Nat) : List Char :=
  (sc.input.drop mark).take (sc.pos - mark)

/-- Faults raised (as Go panics) during partitioning: a raw newline inside a
quoted literal, or an unclosed bracket at end of processing. -/
inductive Fault where
  | newlineInString (pos : Nat)
  | unclosedBracket (openAt : Nat) (count : Int)
deriving DecidableEq, Repr

/-- `mkChunk`: package the text consumed since `mark` into a chunk; a pending
end-of-input indication is delayed (cleared) when the chunk carries data. -/
def mkChunk (mark : Nat) (scanner : Scanner) (kind : Kind) (numLines : Nat)
    (eof : Bool) : Chunk × Scanner × Bool :=
  let text := scanner.Slice mark
  let eof := if 0 < text.length && eof then false else eof
  ({ kind := kind, text := text, numNL := numLines }, scanner, eof)

/-- `readSingleLineComment`: consume through end-of-line or end-of-input.
`numNL` is passed as `1` on both exits, as in the source. The `fuel`
argument only bounds the recursion; every call below supplies more fuel than
there are characters left, so the fuel-exhausted branch is never taken. -/
def readSingleLineComment (fuel : Nat) (mark : Nat) (sc : Scanner) :
    Chunk × Scanner × Bool :=
  match fuel with
  | 0 => mkChunk mark sc KCOMMENT 1 true
  | fuel + 1 =>
    match sc.ReadRune with
    | none => mkChunk mark sc KCOMMENT 1 true
    | some (ch, sc') =>
      if ch = '\n' then mkChunk mark sc' KCOMMENT 1 false
      else readSingleLineComment fuel mark sc'

/-- `readMultilineComment`: read until `*/` or end of input, counting newlines
in `numLines` (a local mutable counter in the source, an accumulator here).
A character read right after a `*` that is neither `/` nor end-of-input is
consumed without being counted, exactly as in the source loop. -/
def readMultilineComment (fuel : Nat) (numLines : Nat) (mark : Nat)
    (sc : Scanner) : Chunk × Scanner × Bool :=
  match fuel with
  | 0 => mkChunk mark sc KCOMMENT numLines true
  | fuel + 1 =>
    match sc.ReadRune with
    | none => mkChunk mark sc KCOMMENT numLines true
    | some (ch, sc') =>
      if ch = '*' then
        match sc'.ReadRune with
        | none => mkChunk mark sc' KCOMMENT numLines true
        | some (ch2, sc'') =>
          if ch2 = '/' then mkChunk mark sc'' KCOMMENT numLines false
          else readMultilineComment fuel numLines mark sc''
      else if ch = '\n' then readMultilineComment fuel (numLines + 1) mark sc'
      else readMultilineComment fuel numLines mark sc'

/-- `readString`: look for the closing quote while honouring escapes; a raw
newline is a fault (a panic in the source). In the source an escape at end of
input leaves the cursor unmoved and the next loop turn hits end-of-input; here
that next turn is taken by recursing with the unchanged scanner. -/
def readString (fuel : Nat) (mark : Nat) (sc : Scanner) (endCh : Char) :
    Except Fault (Chunk × Scanner × Bool) :=
  match fuel with
  | 0 => .ok (mkChunk mark sc KSTRING 0 true)
  | fuel + 1 =>
    match sc.ReadRune with
    | none => .ok (mkChunk mark sc KSTRING 0 true)
    | some (ch, sc') =>
      if ch = endCh then .ok (mkChunk mark sc' KSTRING 0 false)
      else if ch = '\\' then
        match sc'.ReadRune with
        | none => readString fuel mark sc' endCh
        | some (_, sc'') => readString fuel mark sc'' endCh
      else if ch = '\n' then .error (.newlineInString sc'.Pos)
      else readString fuel mark sc' endCh

/-- `readMultilineString`: read a raw backquoted literal. On end-of-input the
source passes the literal `1` (not the running count) to `mkChunk`. -/
def readMultilineString (fuel : Nat) (numLines : Nat) (mark : Nat)
    (sc : Scanner) : Chunk × Scanner × Bool :=
  match fuel with
  | 0 => mkChunk mark sc KSTRING 1 true
  | fuel + 1 =>
    match sc.ReadRune with
    | none => mkChunk mark sc KSTRING 1 true
    | some (ch, sc') =>
      if ch = backquote then mkChunk mark sc' KSTRING numLines false
      else if ch = '\n' then readMultilineString fuel (numLines + 1) mark sc'
      else readMultilineString fuel numLines mark sc'

/-- `readText`: read until end-of-line, end-of-input, a quote character, or a
possible comment opener; a `/` that starts a comment is pushed back together
with its lookahead (`Reset`). -/
def readText (fuel : Nat) (mark : Nat) (sc : Scanner) :
    Chunk × Scanner × Bool :=
  match fuel with
  | 0 => mkChunk mark sc KTEXT 0 true
  | fuel + 1 =>
    match sc.ReadRune with
    | none => mkChunk mark sc KTEXT 0 true
    | some (ch, sc') =>
      if ch = '/' then
        let slashMark := sc'.Mark
        match sc'.ReadRune with
        | none => readText fuel mark sc'
        | some (ch2, sc'') =>
          if ch2 = '*' || ch2 = '/' then
            mkChunk mark (sc''.Reset (slashMark - 1)) KTEXT 0 false
          else readText fuel mark sc''
      else if ch = backquote || ch = dquote || ch = squote then
        mkChunk mark sc'.UnreadRune KTEXT 0 false
      else if ch = '\n' then mkChunk mark sc' KTEXT 1 false
      else readText fuel mark sc'

/-- `nextChunk`: extract the next chunk. `.ok none` is the end-of-input
indication a caller receives with no chunk data (the source's bare `io.EOF`
return); a chunk accompanied by `true` is one whose end-of-input indication
was not cleared, which the partition loop discards. -/
def nextChunk (fuel : Nat) (scanner : Scanner) :
    Except Fault (Option (Chunk × Scanner × Bool)) :=
  let mark := scanner.Mark
  match scanner.ReadRune with
  | none => .ok none
  | some (ch, sc) =>
    if ch = '/' then
      match sc.ReadRune with
      | none => .ok (some (mkChunk mark sc KCOMMENT 0 true))
      | some (ch2, sc2) =>
        if ch2 = '/' then .ok (some (readSingleLineComment fuel mark sc2))
        else if ch2 = '*' then .ok (some (readMultilineComment fuel 0 mark sc2))
        else .ok (some (readText fuel mark sc2))
    else if ch = dquote || ch = squote then readString fuel mark sc ch
    else if ch = backquote then .ok (some (readMultilineString fuel 0 mark sc))
    else if ch = '\n' then .ok (some (mkChunk mark sc KTEXT 1 false))
    else .ok (some (readText fuel mark sc))

/-- The chunk-reading loop of `partition`: call `nextChunk` until end of
input, collecting the produced chunks in order. -/
def chunksLoop (fuel : Nat) (sc : Scanner) : Except Fault (List Chunk) :=
  match fuel with
  | 0 => .ok []
  | fuel + 1 =>
    match nextChunk sc.input.length sc with
    | .error f => .error f
    | .ok none => .ok []
    | .ok (some (c, sc', eof)) =>
      if eof then .ok []
      else
        match chunksLoop fuel sc' with
        | .error f => .error f
        | .ok cs => .ok (c :: cs)

/-- All chunks of an input, in order. -/
def chunksOf (code : List Char) : Except Fault (List Chunk) :=
  chunksLoop (code.length + 1) (NewScanner code)

/-- Concatenation of the text of a list of chunks. -/
def joinTexts (cs : List Chunk) : List Char :=
  cs.foldr (fun c acc => c.text ++ acc) []

/-- The canonical import paths of the built-in standard packages, as listed in
the package initializer. -/
def builtinPkgsList : List (List Char) :=
  [ "hash/adler32".data, "crypto/aes".data, "encoding/ascii85".data,
    "encoding/asn1".data, "go/ast".data, "sync/atomic".data,
    "encoding/base32".data, "encoding/base64".data, "math/big".data,
    "encoding/binary".data, "bufio".data, "go/build".data, "bytes".data,
    "compress/bzip2".data, "net/http/cgi".data, "runtime/cgo".data,
    "crypto/cipher".data, "math/cmplx".data, "image/color".data,
    "hash/crc32".data, "hash/crc64".data, "crypto".data, "encoding/csv".data,
    "runtime/debug".data, "crypto/des".data, "go/doc".data, "image/draw".data,
    "database/sql/driver".data, "crypto/dsa".data, "debug/dwarf".data,
    "crypto/ecdsa".data, "debug/elf".data, "crypto/elliptic".data,
    "errors".data, "os/exec".data, "expvar".data, "net/http/fcgi".data,
    "path/filepath".data, "flag".data, "compress/flate".data, "fmt".data,
    "hash/fnv".data, "image/gif".data, "encoding/gob".data,
    "debug/gosym".data, "compress/gzip".data, "hash".data,
    "container/heap".data, "encoding/hex".data, "crypto/hmac".data,
    "html".data, "net/http".data, "net/http/httputil".data, "image".data,
    "io".data, "io/ioutil".data, "image/jpeg".data, "encoding/json".data,
    "net/rpc/jsonrpc".data, "container/list".data, "log".data,
    "compress/lzw".data, "debug/macho".data, "net/mail".data, "math".data,
    "crypto/md5".data, "mime".data, "mime/multipart".data, "net".data,
    "os".data, "text/template/parse".data, "go/parser".data, "path".data,
    "debug/pe".data, "encoding/pem".data, "crypto/x509/pkix".data,
    "image/png".data, "net/http/pprof".data, "go/printer".data,
    "math/rand".data, "crypto/rc4".data, "reflect".data, "regexp".data,
    "container/ring".data, "net/rpc".data, "crypto/rsa".data, "runtime".data,
    "text/scanner".data, "crypto/sha1".data, "crypto/sha256".data,
    "crypto/sha512".data, "os/signal".data, "net/smtp".data, "sort".data,
    "database/sql".data, "strconv".data, "strings".data, "crypto/subtle".data,
    "index/suffixarray".data, "sync".data, "regexp/syntax".data,
    "syscall".data, "log/syslog".data, "text/tabwriter".data,
    "archive/tar".data, "text/template".data, "net/textproto".data,
    "time".data, "crypto/tls".data, "go/token".data, "unicode".data,
    "unsafe".data, "net/url".data, "os/user".data, "unicode/utf16".data,
    "unicode/utf8".data, "crypto/x509".data, "encoding/xml".data,
    "archive/zip".data, "compress/zlib".data ]

/-- The short name of a package path: the segment after the last slash
(`pkg[strings.LastIndex(pkg, "/")+1:]`). -/
def shortName (pkg : List Char) : List Char :=
  (pkg.reverse.takeWhile (fun c => !(c = '/'))).reverse

/-- The `builtinPkgs` map built in the initializer: short name to canonical
path, later entries overwriting earlier ones. -/
def builtinLookup (short : List Char) : Option (List Char) :=
  (builtinPkgsList.filter (fun p => shortName p = short)).getLast?

/-- The word-character class of the patterns: `[0-9A-Za-z_]`. -/
def isW (c : Char) : Bool := c.isAlphanum || c = '_'

/-- Matcher for `pkgPat`, the pattern `\b[a-z]\w+\.`: a lowercase letter at a
word boundary, at least one further word character, then a dot. The word
characters after the first letter are forced to be the maximal run, since the
following character must be a dot (not a word character); matches are found
left to right and do not overlap, as `FindAllString` does. -/
def pkgScan (fuel : Nat) (prevW : Bool) (s : List Char) : List (List Char) :=
  match fuel, s with
  | 0, _ => []
  | _ + 1, [] => []
  | fuel + 1, c :: rest =>
    if !prevW && c.isLower then
      let run := rest.takeWhile isW
      let after := rest.drop run.length
      if 0 < run.length && after.head? = some '.' then
        (c :: (run ++ ['.'])) :: pkgScan fuel false (after.drop 1)
      else pkgScan fuel (isW c) rest
    else pkgScan fuel (isW c) rest

/-- All matches of `pkgPat` in a text (`pkgPat.FindAllString(code, -1)`). -/
def pkgPatFindAll (code : List Char) : List (List Char) :=
  pkgScan (code.length + 1) false code

/-- The candidate package qualifiers of a text: each match with its trailing
dot removed. -/
def qualifiersOf (code : List Char) : List (List Char) :=
  (pkgPatFindAll code).map (fun m => m.dropLast)

/-- Insertion into the key set of a Go map with `true` values: a no-op when
the key is already present. -/
def insertPkg (p : List Char) (l : List (List Char)) : List (List Char) :=
  if p ∈ l then l else l ++ [p]

/-- `inferPackages`: record the canonical path of every matched qualifier
that names a built-in package. -/
def inferPackages (code : List Char) (pkgsToImport : List (List Char)) :
    List (List Char) :=
  (pkgPatFindAll code).foldl
    (fun acc m =>
      match builtinLookup m.dropLast with
      | some importPkg => insertPkg importPkg acc
      | none => acc)
    pkgsToImport

/-- The partition state, as in the source `State` struct. The `chunks` map is
a function from line numbers to the recorded chunk lists (`none` for absent
keys). -/
structure State where
  lineNum : Nat
  pkgsToImport : List (List Char)
  isTopLevel : Bool
  brackOpenAt : Nat
  brackCount : Int
  closingCh : Char
  chunks : Nat → Option (List Chunk)

/-- The state `partition` starts from. -/
def initState : State :=
  { lineNum := 1, pkgsToImport := [], isTopLevel := false, brackOpenAt := 0,
    closingCh := ' ', brackCount := 0, chunks := fun _ => none }

/-- `addChunk`: append a chunk to the current line's list and advance the
line counter by the chunk's recorded line breaks. -/
def addChunk (state : State) (chunk : Chunk) : State :=
  let chunks := (state.chunks state.lineNum).getD []
  { state with
    chunks := fun n =>
      if n = state.lineNum then some (chunks ++ [chunk]) else state.chunks n,
    lineNum := state.lineNum + chunk.numNL }

/-- `extractTxt`: concatenate the text of the TEXT chunks of a line. -/
def extractTxt (chunks : List Chunk) : List Char :=
  chunks.foldl (fun line c => if c.kind = KTEXT then line ++ c.text else line) []

/-- `strings.TrimLeft(l, " \t")`. -/
def trimLeftSpaceTab (l : List Char) : List Char :=
  l.dropWhile (fun c => c = ' ' || c = '\t')

/-- The character class of `strings.TrimSpace` (`unicode.IsSpace` on the
Latin-1 range). -/
def isGoSpace (c : Char) : Bool :=
  c = ' ' || c = '\t' || c = '\n' || c = Char.ofNat 11 || c = Char.ofNat 12 ||
  c = '\r' || c = Char.ofNat 133 || c = Char.ofNat 160

/-- `strings.TrimSpace`. -/
def trimSpace (l : List Char) : List Char :=
  ((l.dropWhile isGoSpace).reverse.dropWhile isGoSpace).reverse

/-- The closing-bracket / declaration-detection block of `processLine`: a `}`
or `)` at the beginning of the line closes a bracket; otherwise, at depth
zero, the line sets top-level mode when it starts a func/type/import
declaration. -/
def closeStep (l : List Char) (state : State) : State :=
  if 0 < l.length then
    if l.head? = some state.closingCh then
      let bc := state.brackCount - 1
      if bc = 0 then
        { state with brackCount := bc, closingCh := ' ', brackOpenAt := 0 }
      else { state with brackCount := bc }
    else if state.brackCount = 0 then
      { state with
        isTopLevel := "func ".data.isPrefixOf l || "type ".data.isPrefixOf l ||
          "import ".data.isPrefixOf l }
    else state
  else state

/-- The opening-bracket block of `processLine`: a `{` or `(` at the end of
the line opens a bracket; the opening line is recorded as `state.lineNum`
(the source reads the field, not the loop's line number). -/
def openStep (l : List Char) (state : State) : State :=
  if 0 < l.length then
    if l.getLast? = some lbrace then
      { state with
        closingCh := rbrace,
        brackOpenAt :=
          if state.brackCount = 0 then state.lineNum else state.brackOpenAt,
        brackCount := state.brackCount + 1 }
    else if l.getLast? = some '(' then
      { state with
        closingCh := ')',
        brackOpenAt :=
          if state.brackCount = 0 then state.lineNum else state.brackOpenAt,
        brackCount := state.brackCount + 1 }
    else state
  else state

/-- `processLine`: infer packages from the line's TEXT chunks, update the
bracket state from the first and last structural characters, and return the
line's original text. -/
def processLine (lineNum : Nat) (state : State) : List Char × State :=
  match state.chunks lineNum with
  | none => ([], state)
  | some chunks =>
    let state :=
      { state with
        pkgsToImport := chunks.foldl
          (fun pk c => if c.kind = KTEXT then inferPackages c.text pk else pk)
          state.pkgsToImport }
    let l := trimLeftSpaceTab (extractTxt chunks)
    let state := closeStep l state
    let l := trimSpace l
    let state := openStep l state
    (chunks.foldl (fun retLine c => retLine ++ c.text) [], state)

/-- `addLine`: append a line to a buffer, prepending a `//line :n` directive
whenever the buffer ends at a line boundary. -/
def addLine (lineNum : Nat) (code : List Char) (line : List Char) : List Char :=
  if code.length = 0 || code.getLast? = some '\n' then
    code ++ "//line :".data ++ (Nat.repr lineNum).data ++ ['\n'] ++ line
  else code ++ line

/-- The line loop of `partition`: process the given line numbers in order,
routing each emitted line into the top-level or body buffer. -/
def processLines (lns : List Nat) (acc : List Char × List Char × State) :
    List Char × List Char × State :=
  lns.foldl
    (fun acc ln =>
      let (topLevel, nonTopLevel, st) := acc
      let (line, st) := processLine ln st
      if st.isTopLevel then (addLine ln topLevel line, nonTopLevel, st)
      else (topLevel, addLine ln nonTopLevel line, st))
    acc

/-- The chunk-accumulation phase of `partition`: read all chunks and fold
them into the state. The source interleaves `addChunk` with the reading loop;
`addChunk` never touches the scanner, so the two phases compose. -/
def buildState (code : List Char) : Except Fault State :=
  match chunksOf code with
  | .error f => .error f
  | .ok cs => .ok (cs.foldl addChunk initState)

/-- `partition`: split code into top-level and body text and the set of
inferred imports, failing when a bracket is still open after the last line. -/
def partition (code : List Char) :
    Except Fault (List Char × List Char × List (List Char)) :=
  match buildState code with
  | .error f => .error f
  | .ok state =>
    let r := processLines (List.range' 1 state.lineNum) ([], [], state)
    if 0 < r.2.2.brackCount then
      .error (.unclosedBracket r.2.2.brackOpenAt r.2.2.brackCount)
    else .ok (r.1, r.2.1, r.2.2.pkgsToImport)

/-- The whitespace class `\s` of the Go patterns. -/
def isGoReSpace (c : Char) : Bool :=
  c = '\t' || c = '\n' || c = Char.ofNat 12 || c = '\r' || c = ' '

/-- A character allowed to start the argument list of an alias line:
`[^\s=:(]`. -/
def aliasArgOk (c : Char) : Bool :=
  !(isGoReSpace c || c = '=' || c = ':' || c = '(')

/-- One attempted match of the alias pattern `^\s*K +([^\s=:(].*)$` at an
anchored position: maximal whitespace (which may span line breaks), the key
letter, at least one space, then the captured group running to the end of the
line. Returns the total match length and the captured group. The whitespace
and space runs are forced maximal because the characters that must follow
them are outside the repeated classes. -/
def aliasMatch (key : Char) (s : List Char) : Option (Nat × List Char) :=
  let ws := s.takeWhile isGoReSpace
  let r1 := s.drop ws.length
  match r1.head? with
  | none => none
  | some c =>
    if c = key then
      let sp := (r1.drop 1).takeWhile (fun c => c = ' ')
      if 0 < sp.length then
        let r2 := (r1.drop 1).drop sp.length
        match r2.head? with
        | none => none
        | some d =>
          if aliasArgOk d then
            let grp := r2.takeWhile (fun c => !(c = '\n'))
            some (ws.length + 1 + sp.length + grp.length, grp)
          else none
      else none
    else none

/-- `ReplaceAllString` for one alias pattern: scan left to right; the pattern
is anchored, so a match may start only at the beginning of the input or right
after a newline; a match is replaced by `fn ++ group ++ ")"` and scanning
resumes after it. -/
def aliasScan (fn : List Char) (key : Char) (fuel : Nat) (anchor : Bool)
    (s : List Char) : List Char :=
  match fuel, s with
  | 0, s => s
  | _ + 1, [] => []
  | fuel + 1, c :: rest =>
    if anchor then
      match aliasMatch key (c :: rest) with
      | some (len, grp) =>
        fn ++ grp ++ [')'] ++ aliasScan fn key fuel false ((c :: rest).drop len)
      | none => c :: aliasScan fn key fuel (c = '\n') rest
    else c :: aliasScan fn key fuel (c = '\n') rest

/-- `expandAliases`: expand `p ...` lines to `__p(...)` and then `t ...`
lines to `__t(...)`. -/
def expandAliases (code : List Char) : List Char :=
  let code := aliasScan "__p(".data 'p' (code.length + 1) true code
  aliasScan "__t(".data 't' (code.length + 1) true code

/-- The check `regexp.MatchString("^\s*package ", code)`: the pattern is
anchored at the start, so it matches exactly when the input starts with
whitespace followed by the literal. -/
def hasPackageDecl (code : List Char) : Bool :=
  "package ".data.isPrefixOf (code.dropWhile isGoReSpace)

/-- The literal tail of the redeclared-import diagnostic shape. -/
def redeclLit : List Char := " redeclared as imported package name".data

/-- The literal head of the unused-import diagnostic shape. -/
def unusedLit : List Char := "imported and not used: \"".data

/-- Matcher for the repair pattern
`(\w+) redeclared as imported package name|imported and not used: "(\w+)"`:
all non-overlapping matches, left to right, returning the captured package
name of each. The word runs are forced maximal because the characters that
must follow them are not word characters. -/
def repairScan (fuel : Nat) (s : List Char) : List (List Char) :=
  match fuel, s with
  | 0, _ => []
  | _ + 1, [] => []
  | fuel + 1, c :: rest =>
    let run := (c :: rest).takeWhile isW
    if 0 < run.length && redeclLit.isPrefixOf ((c :: rest).drop run.length) then
      run :: repairScan fuel (((c :: rest).drop run.length).drop redeclLit.length)
    else
      if unusedLit.isPrefixOf (c :: rest) then
        let r2 := (c :: rest).drop unusedLit.length
        let run2 := r2.takeWhile isW
        if 0 < run2.length && (r2.drop run2.length).head? = some dquote then
          run2 :: repairScan fuel ((r2.drop run2.length).drop 1)
        else repairScan fuel rest
      else repairScan fuel rest

/-- `repairImports`: remove every diagnosed package name from the import set,
reporting whether at least one was removed. -/
def repairImports (err : List Char) (pkgsToImport : List (List Char)) :
    Bool × List (List Char) :=
  (repairScan (err.length + 1) err).foldl
    (fun acc pkg =>
      if pkg ∈ acc.2 then (true, acc.2.erase pkg) else acc)
    (false, pkgsToImport)

/-- The import clauses of the generated program, one per recorded path. -/
def buildImports (pkgsToImport : List (List Char)) : List Char :=
  pkgsToImport.foldl
    (fun imports k => imports ++ "import \"".data ++ k ++ [dquote, '\n']) []

/-- The fixed template text around the first interpolation point. -/
def tmplA : List Char := "\npackage main\n".data

/-- The fixed template text between the two top-level interpolation points. -/
def tmplB : List Char := "\n".data

/-- The fixed template text before the body interpolation point. -/
def tmplC : List Char := "\nfunc main() \x7b\n".data

/-- The fixed template tail: the closing of `main` and the two helper
routines backing the `p` and `t` aliases. -/
def tmplD : List Char :=
  ("\n\x7d\n\nfunc __p(values ...interface\x7b\x7d)\x7b\n\tfor _, v := range values \x7b\n" ++
   "             fmt.Printf(\"%+v\\n\", v)\n\t\x7d\n\x7d\n" ++
   "func __t(values ...interface\x7b\x7d)\x7b\n\tfor _, v := range values \x7b\n" ++
   "             fmt.Printf(\"%T\\n\", v)\n\t\x7d\n\x7d\n").data

/-- `buildMain`: instantiate the program template with the import clauses,
the top-level text, and the body text. -/
def buildMain (topLevel : List Char) (nonTopLevel : List Char)
    (pkgsToImport : List (List Char)) : List Char :=
  tmplA ++ buildImports pkgsToImport ++ tmplB ++ topLevel ++ tmplC ++
    nonTopLevel ++ tmplD

/-- `buildAndExec`: compile and run once; when that fails and the diagnostics
implicate inferred imports, remove them and retry exactly once. `runO` is the
external compile-and-run collaborator; the second component counts its
invocations. -/
def buildAndExec (runO : List Char → List Char × List Char)
    (topLevel : List Char) (nonTopLevel : List Char)
    (pkgsToImport : List (List Char)) : (List Char × List Char) × Nat :=
  let pkgsToImport := insertPkg "fmt".data pkgsToImport
  let src := buildMain topLevel nonTopLevel pkgsToImport
  let r := runO src
  if !(r.2 = []) then
    let rep := repairImports r.2 pkgsToImport
    if rep.1 then
      let src := buildMain topLevel nonTopLevel rep.2
      (runO src, 2)
    else (r, 1)
  else (r, 1)

/-- The error string produced by the recovery handler in `Eval` for each
fault: `"1:"` followed by the panic text. -/
def panicMsg : Fault → List Char
  | .newlineInString pos =>
    "1:Newline in string @ ".data ++ [Char.ofNat pos]
  | .unclosedBracket openAt count =>
    "1:".data ++ (Nat.repr openAt).data ++
      ": Bracket or paren not closed. ".data ++ (count.repr).data

/-- `Eval`: pass through inputs that already carry a package declaration;
otherwise expand aliases, partition, and build and execute. A fault during
partitioning is caught by the recovery handler, which returns empty output
and a non-empty error before any compile attempt. The second component
counts compile attempts. -/
def Eval (runO : List Char → List Char × List Char) (code : List Char) :
    (List Char × List Char) × Nat :=
  if hasPackageDecl code then (runO code, 1)
  else
    match partition (expandAliases code) with
    | .error f => (([], panicMsg f), 0)
    | .ok (topLevel, nonTopLevel, pkgsToImport) =>
      buildAndExec runO topLevel nonTopLevel pkgsToImport

/-- The state reached from an input after recording all chunks and processing
lines `1..k` (`none` when the chunker faults). -/
def stateAfterLines (code : List Char) (k : Nat) : Option State :=
  match buildState code with
  | .error _ => none
  | .ok st => some (processLines (List.range' 1 k) ([], [], st)).2.2

/-- The partition-state bracket invariant: the depth is never negative, and
it is zero exactly when no closing character is tracked (the dummy `' '`). -/
def BracketInv (st : State) : Prop :=
  0 ≤ st.brackCount ∧ (st.brackCount = 0 ↔ st.closingCh = ' ')

/-- Soundness data of one reader call: the scanner's text is unchanged, the
cursor moves forward but not past the end, the chunk's text is exactly the
input between `mark` and the final cursor, and when anything stands between
`mark` and the final cursor the end-of-input indication is cleared. -/
def ReaderOK (mark : Nat) (sc : Scanner) (r : Chunk × Scanner × Bool) : Prop :=
  r.2.1.input = sc.input ∧ sc.pos ≤ r.2.1.pos ∧ r.2.1.pos ≤ sc.input.length ∧
  r.1.text = (sc.input.drop mark).take (r.2.1.pos - mark) ∧
  (mark < r.2.1.pos → r.2.2 = false)

theorem readRune_none (sc : Scanner) (h : sc.ReadRune = none) :
    sc.input.length ≤ sc.pos := by
  unfold Scanner.ReadRune at h
  split at h
  · next hd => exact List.drop_eq_nil_iff_le.mp hd
  · exact absurd h (by simp)

theorem readRune_some (sc : Scanner) (c : Char) (sc' : Scanner)
    (h : sc.ReadRune = some (c, sc')) :
    sc'.input = sc.input ∧ sc'.pos = sc.pos + 1 ∧ sc.pos < sc.input.length ∧
      sc.input.drop sc.pos = c :: sc.input.drop (sc.pos + 1) := by
  unfold Scanner.ReadRune at h
  split at h
  · exact absurd h (by simp)
  · next c0 rest hd =>
    simp only [Option.some.injEq, Prod.mk.injEq] at h
    obtain ⟨rfl, rfl⟩ := h
    refine ⟨rfl, rfl, ?_, ?_⟩
    · by_contra hle
      rw [List.drop_eq_nil_iff_le.mpr (by omega)] at hd
      exact absurd hd (by simp)
    · rw [hd]
      have h1 : sc.input.drop (sc.pos + 1) = (sc.input.drop sc.pos).drop 1 := by
        rw [List.drop_drop]
      rw [h1, hd]
      rfl

theorem mkChunk_sc (mark : Nat) (sc2 : Scanner) (k : Kind) (n : Nat)
    (e : Bool) : (mkChunk mark sc2 k n e).2.1 = sc2 := rfl

theorem mkChunk_text (mark : Nat) (sc2 : Scanner) (k : Kind) (n : Nat)
    (e : Bool) : (mkChunk mark sc2 k n e).1.text = sc2.Slice mark := rfl

theorem mkChunk_kind (mark : Nat) (sc2 : Scanner) (k : Kind) (n : Nat)
    (e : Bool) : (mkChunk mark sc2 k n e).1.kind = k := rfl

theorem mkChunk_numNL (mark : Nat) (sc2 : Scanner) (k : Kind) (n : Nat)
    (e : Bool) : (mkChunk mark sc2 k n e).1.numNL = n := rfl

theorem readerOK_mkChunk (mark : Nat) (sc sc2 : Scanner) (k : Kind) (n : Nat)
    (e : Bool) (hin : sc2.input = sc.input) (h1 : sc.pos ≤ sc2.pos)
    (h2 : sc2.pos ≤ sc.input.length) :
    ReaderOK mark sc (mkChunk mark sc2 k n e) := by
  unfold ReaderOK
  rw [mkChunk_sc]
  refine ⟨hin, h1, h2, ?_, ?_⟩
  · rw [mkChunk_text]
    unfold Scanner.Slice
    rw [hin]
  · intro hmp
    have hlen : 0 < (sc2.Slice mark).length := by
      unfold Scanner.Slice
      rw [hin, List.length_take, List.length_drop]
      omega
    cases e with
    | false => simp [mkChunk]
    | true => simp [mkChunk, hlen]

theorem readerOK_trans (mark : Nat) (sc sc' : Scanner) (r : Chunk × Scanner × Bool)
    (hin : sc'.input = sc.input) (hp : sc.pos ≤ sc'.pos)
    (h : ReaderOK mark sc' r) : ReaderOK mark sc r := by
  obtain ⟨a, b, c, d, e⟩ := h
  refine ⟨by rw [a, hin], le_trans hp b, ?_, by rw [d, hin], e⟩
  rw [← hin]
  exact c

theorem readSingleLineComment_OK (fuel : Nat) (mark : Nat) (sc : Scanner)
    (hpos : sc.pos ≤ sc.input.length) :
    ReaderOK mark sc (readSingleLineComment fuel mark sc) := by
  induction fuel generalizing sc with
  | zero => exact readerOK_mkChunk mark sc sc _ _ _ rfl le_rfl hpos
  | succ fuel ih =>
    rw [readSingleLineComment]
    cases hr : sc.ReadRune with
    | none => exact readerOK_mkChunk mark sc sc _ _ _ rfl le_rfl hpos
    | some p =>
      obtain ⟨ch, sc'⟩ := p
      obtain ⟨hin, hp1, hlt, _⟩ := readRune_some sc ch sc' hr
      by_cases hch : ch = '\n'
      · simp only [hch, if_pos rfl]
        exact readerOK_mkChunk mark sc sc' _ _ _ hin (by omega) (by omega)
      · simp only [if_neg hch]
        exact readerOK_trans mark sc sc' _ hin (by omega)
          (ih sc' (by rw [hin]; omega))

theorem readMultilineComment_OK (fuel : Nat) (numLines : Nat) (mark : Nat)
    (sc : Scanner) (hpos : sc.pos ≤ sc.input.length) :
    ReaderOK mark sc (readMultilineComment fuel numLines mark sc) := by
  induction fuel generalizing numLines sc with
  | zero => exact readerOK_mkChunk mark sc sc _ _ _ rfl le_rfl hpos
  | succ fuel ih =>
    rw [readMultilineComment]
    cases hr : sc.ReadRune with
    | none => exact readerOK_mkChunk mark sc sc _ _ _ rfl le_rfl hpos
    | some p =>
      obtain ⟨ch, sc'⟩ := p
      obtain ⟨hin, hp1, hlt, _⟩ := readRune_some sc ch sc' hr
      by_cases hch : ch = '*'
      · simp only [hch, if_pos rfl]
        cases hr2 : sc'.ReadRune with
        | none => exact readerOK_mkChunk mark sc sc' _ _ _ hin (by omega) (by omega)
        | some p2 =>
          obtain ⟨ch2, sc''⟩ := p2
          obtain ⟨hin2, hp2, hlt2, _⟩ := readRune_some sc' ch2 sc'' hr2
          by_cases hch2 : ch2 = '/'
          · simp only [hch2, if_pos rfl]
            exact readerOK_mkChunk mark sc sc'' _ _ _ (by rw [hin2, hin])
              (by omega) (by rw [← hin]; omega)
          · simp only [if_neg hch2]
            exact readerOK_trans mark sc sc'' _ (by rw [hin2, hin]) (by omega)
              (ih _ sc'' (by rw [hin2, hin]; rw [hin] at hlt2; omega))
      · simp only [if_neg hch]
        by_cases hnl : ch = '\n'
        · simp only [hnl, if_pos rfl]
          exact readerOK_trans mark sc sc' _ hin (by omega)
            (ih _ sc' (by rw [hin]; omega))
        · simp only [if_neg hnl]
          exact readerOK_trans mark sc sc' _ hin (by omega)
            (ih _ sc' (by rw [hin]; omega))

theorem readMultilineString_OK (fuel : Nat) (numLines : Nat) (mark : Nat)
    (sc : Scanner) (hpos : sc.pos ≤ sc.input.length) :
    ReaderOK mark sc (readMultilineString fuel numLines mark sc) := by
  induction fuel generalizing numLines sc with
  | zero => exact readerOK_mkChunk mark sc sc _ _ _ rfl le_rfl hpos
  | succ fuel ih =>
    rw [readMultilineString]
    cases hr : sc.ReadRune with
    | none => exact readerOK_mkChunk mark sc sc _ _ _ rfl le_rfl hpos
    | some p =>
      obtain ⟨ch, sc'⟩ := p
      obtain ⟨hin, hp1, hlt, _⟩ := readRune_some sc ch sc' hr
      by_cases hch : ch = backquote
      · simp only [hch, if_pos rfl]
        exact readerOK_mkChunk mark sc sc' _ _ _ hin (by omega) (by omega)
      · simp only [if_neg hch]
        by_cases hnl : ch = '\n'
        · simp only [hnl, if_pos rfl]
          exact readerOK_trans mark sc sc' _ hin (by omega)
            (ih _ sc' (by rw [hin]; omega))
        · simp only [if_neg hnl]
          exact readerOK_trans mark sc sc' _ hin (by omega)
            (ih _ sc' (by rw [hin]; omega))

theorem readText_OK (fuel : Nat) (mark : Nat) (sc : Scanner)
    (hpos : sc.pos ≤ sc.input.length) :
    ReaderOK mark sc (readText fuel mark sc) := by
  induction fuel generalizing sc with
  | zero => exact readerOK_mkChunk mark sc sc _ _ _ rfl le_rfl hpos
  | succ fuel ih =>
    rw [readText]
    cases hr : sc.ReadRune with
    | none => exact readerOK_mkChunk mark sc sc _ _ _ rfl le_rfl hpos
    | some p =>
      obtain ⟨ch, sc'⟩ := p
      obtain ⟨hin, hp1, hlt, _⟩ := readRune_some sc ch sc' hr
      by_cases hsl : ch = '/'
      · simp only [hsl, if_pos rfl]
        cases hr2 : sc'.ReadRune with
        | none =>
          exact readerOK_trans mark sc sc' _ hin (by omega)
            (ih sc' (by rw [hin]; omega))
        | some p2 =>
          obtain ⟨ch2, sc''⟩ := p2
          obtain ⟨hin2, hp2, hlt2, _⟩ := readRune_some sc' ch2 sc'' hr2
          by_cases hch2 : ch2 = '*' ∨ ch2 = '/'
          · have hb : (ch2 = '*' || ch2 = '/') = true := by
              rcases hch2 with h | h <;> simp [h]
            simp only [hb, if_pos rfl]
            refine readerOK_mkChunk mark sc _ _ _ _ ?_ ?_ ?_
            · show sc''.input = sc.input
              rw [hin2, hin]
            · show sc.pos ≤ sc'.Mark - 1
              unfold Scanner.Mark
              omega
            · show sc'.Mark - 1 ≤ sc.input.length
              unfold Scanner.Mark
              omega
          · have hb : (ch2 = '*' || ch2 = '/') = false := by
              simp only [not_or] at hch2
              simp [hch2.1, hch2.2]
            simp only [hb, Bool.false_eq_true, if_false]
            exact readerOK_trans mark sc sc'' _ (by rw [hin2, hin]) (by omega)
              (ih sc'' (by rw [hin2, hin]; rw [hin] at hlt2; omega))
      · simp only [if_neg hsl]
        by_cases hq : ch = backquote ∨ ch = dquote ∨ ch = squote
        · have hb : (ch = backquote || ch = dquote || ch = squote) = true := by
            rcases hq with h | h | h <;> simp [h]
          simp only [hb, if_pos rfl]
          refine readerOK_mkChunk mark sc sc'.UnreadRune _ _ _ hin ?_ ?_
          · show sc.pos ≤ sc'.pos - 1
            omega
          · show sc'.pos - 1 ≤ sc.input.length
            omega
        · have hb : (ch = backquote || ch = dquote || ch = squote) = false := by
            simp only [not_or] at hq
            simp [hq.1, hq.2.1, hq.2.2]
          simp only [hb, Bool.false_eq_true, if_false]
          by_cases hnl : ch = '\n'
          · simp only [hnl, if_pos rfl]
            exact readerOK_mkChunk mark sc sc' _ _ _ hin (by omega) (by omega)
          · simp only [if_neg hnl]
            exact readerOK_trans mark sc sc' _ hin (by omega)
              (ih sc' (by rw [hin]; omega))

theorem readString_OK (fuel : Nat) (mark : Nat) (sc : Scanner) (endCh : Char)
    (hpos : sc.pos ≤ sc.input.length) (r : Chunk × Scanner × Bool)
    (h : readString fuel mark sc endCh = .ok r) : ReaderOK mark sc r := by
  induction fuel generalizing sc r with
  | zero =>
    rw [readString] at h
    obtain rfl : mkChunk mark sc KSTRING 0 true = r := by
      injection h
    exact readerOK_mkChunk mark sc sc _ _ _ rfl le_rfl hpos
  | succ fuel ih =>
    rw [readString] at h
    cases hr : sc.ReadRune with
    | none =>
      rw [hr] at h
      obtain rfl : mkChunk mark sc KSTRING 0 true = r := by
        injection h
      exact readerOK_mkChunk mark sc sc _ _ _ rfl le_rfl hpos
    | some p =>
      obtain ⟨ch, sc'⟩ := p
      rw [hr] at h
      obtain ⟨hin, hp1, hlt, _⟩ := readRune_some sc ch sc' hr
      by_cases hend : ch = endCh
      · simp only [hend, if_pos rfl] at h
        obtain rfl : mkChunk mark sc' KSTRING 0 false = r := by
          injection h
        exact readerOK_mkChunk mark sc sc' _ _ _ hin (by omega) (by omega)
      · simp only [if_neg hend] at h
        by_cases hesc : ch = '\\'
        · simp only [hesc, if_pos rfl] at h
          cases hr2 : sc'.ReadRune with
          | none =>
            rw [hr2] at h
            exact readerOK_trans mark sc sc' _ hin (by omega)
              (ih sc' (by rw [hin]; omega) r h)
          | some p2 =>
            obtain ⟨ch2, sc''⟩ := p2
            rw [hr2] at h
            obtain ⟨hin2, hp2, hlt2, _⟩ := readRune_some sc' ch2 sc'' hr2
            exact readerOK_trans mark sc sc'' _ (by rw [hin2, hin]) (by omega)
              (ih sc'' (by rw [hin2, hin]; rw [hin] at hlt2; omega) r h)
        · simp only [if_neg hesc] at h
          by_cases hnl : ch = '\n'
          · simp only [hnl, if_pos rfl] at h
            exact absurd h (by simp)
          · simp only [if_neg hnl] at h
            exact readerOK_trans mark sc sc' _ hin (by omega)
              (ih sc' (by rw [hin]; omega) r h)


theorem nextChunk_conv (sc sc1 : Scanner) (r : Chunk × Scanner × Bool)
    (hin : sc1.input = sc.input) (hp1 : sc.pos < sc1.pos)
    (hok : ReaderOK sc.pos sc1 r) :
    r.2.1.input = sc.input ∧ sc.pos < r.2.1.pos ∧ r.2.1.pos ≤ sc.input.length ∧
      r.1.text = (sc.input.drop sc.pos).take (r.2.1.pos - sc.pos) ∧
      r.2.2 = false := by
  obtain ⟨a, b, c, d, e⟩ := hok
  rw [hin] at c d
  exact ⟨by rw [a, hin], by omega, c, d, e (by omega)⟩

theorem nextChunk_some (fuel : Nat) (sc : Scanner)
    (hpos : sc.pos ≤ sc.input.length) (r : Chunk × Scanner × Bool)
    (h : nextChunk fuel sc = .ok (some r)) :
    r.2.1.input = sc.input ∧ sc.pos < r.2.1.pos ∧ r.2.1.pos ≤ sc.input.length ∧
      r.1.text = (sc.input.drop sc.pos).take (r.2.1.pos - sc.pos) ∧
      r.2.2 = false := by
  unfold nextChunk at h
  rcases hr : sc.ReadRune with _ | ⟨ch, sc1⟩ <;> rw [hr] at h
  · simp at h
  · obtain ⟨hin, hp1, hlt, _⟩ := readRune_some sc ch sc1 hr
    have hpos1 : sc1.pos ≤ sc1.input.length := by rw [hin]; omega
    have hmark : Scanner.Mark sc = sc.pos := rfl
    simp only [hmark] at h
    split at h
    · rcases hr2 : sc1.ReadRune with _ | ⟨ch2, sc2⟩ <;> rw [hr2] at h
      · simp only [Except.ok.injEq, Option.some.injEq] at h
        subst h
        exact nextChunk_conv sc sc1 _ hin (by omega)
          (readerOK_mkChunk sc.pos sc1 sc1 _ _ _ rfl le_rfl hpos1)
      · obtain ⟨hin2, hp2, hlt2, _⟩ := readRune_some sc1 ch2 sc2 hr2
        have hpos2 : sc2.pos ≤ sc2.input.length := by
          rw [hin2, hin]
          rw [hin] at hlt2
          omega
        have hin2' : sc2.input = sc.input := by rw [hin2, hin]
        simp only [Except.ok.injEq, Option.some.injEq] at h
        split at h
        · simp only [Except.ok.injEq, Option.some.injEq] at h
          subst h
          exact nextChunk_conv sc sc2 _ hin2' (by omega)
            (readSingleLineComment_OK fuel sc.pos sc2 hpos2)
        · split at h
          · simp only [Except.ok.injEq, Option.some.injEq] at h
            subst h
            exact nextChunk_conv sc sc2 _ hin2' (by omega)
              (readMultilineComment_OK fuel 0 sc.pos sc2 hpos2)
          · simp only [Except.ok.injEq, Option.some.injEq] at h
            subst h
            exact nextChunk_conv sc sc2 _ hin2' (by omega)
              (readText_OK fuel sc.pos sc2 hpos2)
    · split at h
      · rcases hs : readString fuel sc.pos sc1 ch with f | r0 <;> rw [hs] at h
        · simp [Bind.bind, Except.bind] at h
        · simp only [Bind.bind, Except.bind, Pure.pure, Except.pure,
            Except.ok.injEq, Option.some.injEq] at h
          subst h
          exact nextChunk_conv sc sc1 _ hin (by omega)
            (readString_OK fuel sc.pos sc1 ch hpos1 _ hs)
      · split at h
        · simp only [Except.ok.injEq, Option.some.injEq] at h
          subst h
          exact nextChunk_conv sc sc1 _ hin (by omega)
            (readMultilineString_OK fuel 0 sc.pos sc1 hpos1)
        · split at h
          · simp only [Except.ok.injEq, Option.some.injEq] at h
            subst h
            exact nextChunk_conv sc sc1 _ hin (by omega)
              (readerOK_mkChunk sc.pos sc1 sc1 _ _ _ rfl le_rfl hpos1)
          · simp only [Except.ok.injEq, Option.some.injEq] at h
            subst h
            exact nextChunk_conv sc sc1 _ hin (by omega)
              (readText_OK fuel sc.pos sc1 hpos1)

theorem nextChunk_none (fuel : Nat) (sc : Scanner)
    (h : nextChunk fuel sc = .ok none) : sc.input.length ≤ sc.pos := by
  unfold nextChunk at h
  rcases hr : sc.ReadRune with _ | ⟨ch, sc1⟩
  · exact readRune_none sc hr
  · exfalso
    rw [hr] at h
    have hmark : Scanner.Mark sc = sc.pos := rfl
    simp only [hmark] at h
    split at h
    · rcases hr2 : sc1.ReadRune with _ | ⟨ch2, sc2⟩ <;> rw [hr2] at h
      · simp at h
      · simp only [] at h
        split at h
        · simp at h
        · split at h
          · simp at h
          · simp at h
    · split at h
      · rcases hs : readString fuel sc.pos sc1 ch with f | r0 <;> rw [hs] at h
        · simp [Bind.bind, Except.bind] at h
        · simp [Bind.bind, Except.bind, Pure.pure, Except.pure] at h
      · split at h
        · simp at h
        · split at h
          · simp at h
          · simp at h

theorem chunksLoop_join (fuel : Nat) (sc : Scanner)
    (hpos : sc.pos ≤ sc.input.length)
    (hfuel : sc.input.length - sc.pos < fuel) (cs : List Chunk)
    (h : chunksLoop fuel sc = .ok cs) :
    joinTexts cs = sc.input.drop sc.pos := by
  induction fuel generalizing sc cs with
  | zero => omega
  | succ fuel ih =>
    rw [chunksLoop] at h
    rcases hn : nextChunk sc.input.length sc with f | o <;> rw [hn] at h
    · simp at h
    · rcases o with _ | ⟨c, sc', e⟩
      · simp only [Except.ok.injEq] at h
        subst h
        have hend := nextChunk_none sc.input.length sc hn
        rw [List.drop_eq_nil_iff_le.mpr hend]
        rfl
      · have spec := nextChunk_some sc.input.length sc hpos (c, sc', e) hn
        dsimp only at spec
        obtain ⟨hin, hlt, hle, htext, he⟩ := spec
        subst he
        simp only [Bool.false_eq_true, if_false] at h
        rcases hrec : chunksLoop fuel sc' with f | cs' <;> rw [hrec] at h
        · simp at h
        · simp only [Except.ok.injEq] at h
          subst h
          have hrecj : joinTexts cs' = sc'.input.drop sc'.pos :=
            ih sc' (by rw [hin]; omega) (by rw [hin]; omega) cs' hrec
          show c.text ++ joinTexts cs' = sc.input.drop sc.pos
          rw [htext, hrecj, hin]
          have hsplit := List.take_append_drop (sc'.pos - sc.pos)
            (sc.input.drop sc.pos)
          rw [List.drop_drop] at hsplit
          have harith : sc.pos + (sc'.pos - sc.pos) = sc'.pos := by omega
          rw [harith] at hsplit
          exact hsplit

/-- C1: chunk-concatenation round-trip. Whenever the chunker reads an input
to completion (no newline-in-string fault), the concatenation of the text of
all produced chunks is exactly the input. -/
theorem c1_chunk_roundtrip (code : List Char) (cs : List Chunk)
    (h : chunksOf code = .ok cs) : joinTexts cs = code := by
  have r := chunksLoop_join (code.length + 1) (NewScanner code)
    (by simp [NewScanner]) (by simp [NewScanner]) cs h
  simpa [NewScanner] using r

/-- Witness for C1 at the concrete input `ab\n` followed by `c"d"`. -/
theorem c1_chunk_roundtrip_witness :
    chunksOf "ab\nc\"d\"".data =
      .ok [⟨KTEXT, "ab\n".data, 1⟩, ⟨KTEXT, "c".data, 0⟩,
        ⟨KSTRING, "\"d\"".data, 0⟩] ∧
    joinTexts [⟨KTEXT, "ab\n".data, 1⟩, ⟨KTEXT, "c".data, 0⟩,
        ⟨KSTRING, "\"d\"".data, 0⟩] = "ab\nc\"d\"".data := by
  refine ⟨by rfl, c1_chunk_roundtrip _ _ (by rfl)⟩

/-- C2 (code bug): an unclosed `{` opened on line 1 of a three-line input is
reported with line number 3 — the line counter reached after chunking, which
`openStep` stores via `state.lineNum` — not the opening line.  The `State`
field is documented in the source as "lineNumber where the last bracket was
opened", and the spec promises the opening line, so the recorded value is
wrong whenever the bracket does not open on the final line. -/
theorem c2_unclosed_line_eval :
    partition "\x7b\nx\n".data = .error (.unclosedBracket 3 1) ∧ (3 : Nat) ≠ 1 := by
  exact ⟨by rfl, by decide⟩

/-- C3 (code bug): the chunk for an end-of-input-terminated single-line
comment records one line break (`readSingleLineComment` passes the literal
`1` on every exit) although its text contains no newline character, against
the source's own description of `numNL` as the number of newlines embedded
in the text. -/
theorem c3_numNL_mismatch :
    chunksOf "//x".data = .ok [⟨KCOMMENT, "//x".data, 1⟩] ∧
    "//x".data.count '\n' = 0 := by
  exact ⟨by rfl, by decide⟩

/-- C4 counterexample: the single-line comment chunk of `//a\nb` has text
`//a\n` — it does contain the terminating newline, contradicting the claim
that the newline is only counted, never kept in the chunk's character data. -/
theorem c4_newline_in_comment_cex :
    chunksOf "//a\nb".data =
      .ok [⟨KCOMMENT, "//a\n".data, 1⟩, ⟨KTEXT, "b".data, 0⟩] ∧
    '\n' ∈ "//a\n".data := by
  exact ⟨by rfl, by decide⟩

theorem slice_snoc (l : List Char) (mark pos : Nat) (ch : Char)
    (rest : List Char) (hm : mark ≤ pos) (hd : l.drop pos = ch :: rest) :
    (l.drop mark).take (pos + 1 - mark) = (l.drop mark).take (pos - mark) ++ [ch] := by
  have h1 : pos + 1 - mark = (pos - mark) + 1 := by omega
  rw [h1, List.take_succ]
  have h2 : (l.drop mark)[pos - mark]? = l[pos]? := by
    rw [List.getElem?_drop]
    congr 1
    omega
  have h3 : l[pos]? = some ch := by
    have h4 : (l.drop pos)[0]? = l[pos]? := by
      rw [List.getElem?_drop]
      congr 1
    rw [hd] at h4
    simpa using h4.symm
  rw [h2, h3]
  rfl

/-- C4 amended: a single-line comment chunk counts exactly one line break,
and when it is terminated by an end-of-line (rather than end-of-input) the
terminating newline is consumed into the chunk's text as its final character
— equivalently, any newline in the chunk's text is its last character. The
hypothesis says the part already consumed before the reader takes over (the
`//` opener) is newline-free, as it is at every call site. -/
theorem c4_comment_newline_amended (fuel mark : Nat) (sc : Scanner)
    (hm : mark ≤ sc.pos) (hpos : sc.pos ≤ sc.input.length)
    (hclean : '\n' ∉ (sc.input.drop mark).take (sc.pos - mark)) :
    (readSingleLineComment fuel mark sc).1.numNL = 1 ∧
    ('\n' ∈ (readSingleLineComment fuel mark sc).1.text →
      (readSingleLineComment fuel mark sc).1.text.getLast? = some '\n') := by
  induction fuel generalizing sc with
  | zero =>
    refine ⟨rfl, ?_⟩
    intro hmem
    exact absurd hmem hclean
  | succ fuel ih =>
    rw [readSingleLineComment]
    rcases hr : sc.ReadRune with _ | ⟨ch, sc'⟩
    · refine ⟨rfl, ?_⟩
      intro hmem
      exact absurd hmem hclean
    · obtain ⟨hin, hp1, hlt, hd⟩ := readRune_some sc ch sc' hr
      have hsnoc : (sc.input.drop mark).take (sc.pos + 1 - mark) =
          (sc.input.drop mark).take (sc.pos - mark) ++ [ch] :=
        slice_snoc sc.input mark sc.pos ch _ hm hd
      by_cases hch : ch = '\n'
      · simp only [hch, if_pos rfl]
        constructor
        · rfl
        · intro _
          show ((mkChunk mark sc' KCOMMENT 1 false).1.text).getLast? = some '\n'
          rw [mkChunk_text]
          unfold Scanner.Slice
          rw [hin, hp1]
          rw [hch] at hsnoc
          rw [hsnoc]
          exact List.getLast?_concat _
      · simp only [if_neg hch]
        refine ih sc' (by omega) (by rw [hin]; omega) ?_
        rw [hin, hp1, hsnoc]
        intro hmem
        rcases List.mem_append.mp hmem with hmem | hmem
        · exact absurd hmem hclean
        · simp at hmem
          exact hch hmem.symm

/-- Witness for the amended C4 at the scanner state reached inside `//a\nb`
right after the `//` opener. -/
theorem c4_comment_newline_amended_witness :
    (0 : Nat) ≤ 2 ∧ (2 : Nat) ≤ "//a\nb".data.length ∧
    '\n' ∉ ("//a\nb".data.drop 0).take (2 - 0) ∧
    ((readSingleLineComment 9 0 ⟨"//a\nb".data, 2⟩).1.numNL = 1 ∧
      ('\n' ∈ (readSingleLineComment 9 0 ⟨"//a\nb".data, 2⟩).1.text →
        (readSingleLineComment 9 0 ⟨"//a\nb".data, 2⟩).1.text.getLast? =
          some '\n')) := by
  exact ⟨by decide, by decide, by decide,
    c4_comment_newline_amended 9 0 ⟨"//a\nb".data, 2⟩ (by decide) (by decide)
      (by decide)⟩

theorem trimLeft_head (l : List Char) (c : Char)
    (h : (trimLeftSpaceTab l).head? = some c) : (c = ' ' || c = '\t') = false := by
  induction l with
  | nil => simp [trimLeftSpaceTab] at h
  | cons a as ih =>
    unfold trimLeftSpaceTab at h ih
    rw [List.dropWhile_cons] at h
    split at h
    · exact ih h
    · next hp =>
      simp only [List.head?_cons, Option.some.injEq] at h
      subst h
      simpa using hp

theorem closeStep_inv (l : List Char) (st : State) (hInv : BracketInv st)
    (hhead : ∀ c, l.head? = some c → (c = ' ' || c = '\t') = false) :
    BracketInv (closeStep l st) := by
  obtain ⟨hnn, hiff⟩ := hInv
  unfold closeStep
  split
  · next hlen =>
    split
    · next hcl =>
      have hchne : ¬st.closingCh = ' ' := by
        intro hsp
        have := hhead st.closingCh hcl
        rw [hsp] at this
        simp at this
      have hbcne : ¬st.brackCount = 0 := fun h0 => hchne (hiff.mp h0)
      dsimp only
      split
      · next hz =>
        exact ⟨by simp; omega, by simp [hz]⟩
      · next hz =>
        refine ⟨by simp; omega, ?_⟩
        simp only []
        constructor
        · intro h0
          exact absurd h0 hz
        · intro hsp
          exact absurd hsp hchne
    · split
      · exact ⟨hnn, hiff⟩
      · exact ⟨hnn, hiff⟩
  · exact ⟨hnn, hiff⟩

theorem openStep_inv (l : List Char) (st : State) (hInv : BracketInv st) :
    BracketInv (openStep l st) := by
  obtain ⟨hnn, hiff⟩ := hInv
  unfold openStep
  split
  · split
    · refine ⟨by simp; omega, ?_⟩
      simp only []
      constructor
      · intro h0
        omega
      · intro hsp
        exact absurd hsp (by decide)
    · split
      · refine ⟨by simp; omega, ?_⟩
        simp only []
        constructor
        · intro h0
          omega
        · intro hsp
          exact absurd hsp (by decide)
      · exact ⟨hnn, hiff⟩
  · exact ⟨hnn, hiff⟩

theorem processLine_inv (n : Nat) (st : State) (hInv : BracketInv st) :
    BracketInv (processLine n st).2 := by
  unfold processLine
  rcases hc : st.chunks n with _ | chunks
  · exact hInv
  · show BracketInv (openStep _ (closeStep _ _))
    refine openStep_inv _ _ (closeStep_inv _ _ ?_ ?_)
    · exact hInv
    · intro c hc
      exact trimLeft_head _ c hc

theorem processLines_inv (lns : List Nat) (acc : List Char × List Char × State)
    (hInv : BracketInv acc.2.2) : BracketInv (processLines lns acc).2.2 := by
  induction lns generalizing acc with
  | nil => exact hInv
  | cons ln lns ih =>
    unfold processLines at ih ⊢
    rw [List.foldl_cons]
    apply ih
    obtain ⟨tl, ntl, st⟩ := acc
    dsimp only
    split
    · exact processLine_inv ln st hInv
    · exact processLine_inv ln st hInv

theorem addChunk_inv (st : State) (c : Chunk) (hInv : BracketInv st) :
    BracketInv (addChunk st c) := hInv

theorem buildState_inv (code : List Char) (st : State)
    (h : buildState code = .ok st) : BracketInv st := by
  unfold buildState at h
  rcases hc : chunksOf code with f | cs <;> rw [hc] at h
  · simp at h
  · simp only [Except.ok.injEq] at h
    subst h
    have : ∀ (cs : List Chunk) (s : State), BracketInv s →
        BracketInv (cs.foldl addChunk s) := by
      intro cs
      induction cs with
      | nil => intro s hs; exact hs
      | cons c cs ih =>
        intro s hs
        rw [List.foldl_cons]
        exact ih _ (addChunk_inv s c hs)
    exact this cs initState (by constructor <;> simp [initState])

/-- C7: partition-state invariant. For any input whose chunk phase succeeds,
the state at the start of line processing and after processing any sequence
of lines satisfies: the bracket depth is non-negative and is zero exactly
when `closingCh` holds the dummy value `' '` (no open block); in particular
the no-open-block state is restored only when the depth returns to zero. -/
theorem c7_bracket_invariant (code : List Char) (st : State)
    (h : buildState code = .ok st) (lns : List Nat) :
    0 ≤ (processLines lns ([], [], st)).2.2.brackCount ∧
    ((processLines lns ([], [], st)).2.2.brackCount = 0 ↔
      (processLines lns ([], [], st)).2.2.closingCh = ' ') :=
  processLines_inv lns ([], [], st) (buildState_inv code st h)

/-- Witness for C7 on the input `x\n` after processing line 1. -/
theorem c7_bracket_invariant_witness :
    buildState "x\n".data =
      .ok (((chunksOf "x\n".data).toOption.getD []).foldl addChunk initState) ∧
    (0 ≤ (processLines [1] ([], [],
        ((chunksOf "x\n".data).toOption.getD []).foldl addChunk
          initState)).2.2.brackCount ∧
      ((processLines [1] ([], [],
          ((chunksOf "x\n".data).toOption.getD []).foldl addChunk
            initState)).2.2.brackCount = 0 ↔
        (processLines [1] ([], [],
          ((chunksOf "x\n".data).toOption.getD []).foldl addChunk
            initState)).2.2.closingCh = ' ')) :=
  ⟨by rfl,
    c7_bracket_invariant "x\n".data
      (((chunksOf "x\n".data).toOption.getD []).foldl addChunk initState)
      (by rfl) [1]⟩

/-- C9 counterexample: in `type T int\n\nx := 1\n`, the TEXT content of line
2 is the lone newline — whitespace only — yet processing line 2 resets
`isTopLevel` from `true` (set by the `type` declaration on line 1) to
`false`, so the blank line is routed to the body buffer instead of the
destination of the last structurally non-empty line. -/
theorem c9_blank_line_cex :
    (stateAfterLines "type T int\n\nx := 1\n".data 1).map
        (fun st => (st.isTopLevel,
          (extractTxt ((st.chunks 2).getD [])).all isGoSpace,
          (processLine 2 st).2.isTopLevel)) = some (true, true, false) := by
  rfl

theorem all_dropWhile (p q : Char → Bool) (l : List Char)
    (h : l.all q = true) : (l.dropWhile p).all q = true := by
  induction l with
  | nil => simp
  | cons a as ih =>
    simp only [List.all_cons, Bool.and_eq_true] at h
    rw [List.dropWhile_cons]
    split
    · exact ih h.2
    · simp [List.all_cons, h.1, h.2]

theorem trimSpace_all (l : List Char) (h : l.all isGoSpace = true) :
    trimSpace l = [] := by
  unfold trimSpace
  have h1 : l.dropWhile isGoSpace = [] := by
    rw [List.dropWhile_eq_nil_iff]
    intro x hx
    exact (List.all_eq_true.mp h) x hx
  rw [h1]
  rfl

theorem openStep_nil (st : State) : openStep [] st = st := rfl

theorem closeStep_nil (st : State) : closeStep [] st = st := rfl

theorem isPrefixOf_cons_ne (a b : Char) (as bs : List Char) (h : ¬a = b) :
    (a :: as).isPrefixOf (b :: bs) = false := by
  show (a == b && as.isPrefixOf bs) = false
  have hb : (a == b) = false := beq_eq_false_iff_ne.mpr h
  rw [hb]
  rfl

theorem closeStep_frame (l : List Char) (st : State)
    (hne : ¬l.head? = some st.closingCh) :
    (closeStep l st).brackCount = st.brackCount ∧
    (closeStep l st).closingCh = st.closingCh ∧
    (closeStep l st).brackOpenAt = st.brackOpenAt ∧
    (closeStep l st).isTopLevel =
      (if 0 < l.length ∧ st.brackCount = 0 then
        ("func ".data.isPrefixOf l || "type ".data.isPrefixOf l ||
          "import ".data.isPrefixOf l) else st.isTopLevel) := by
  by_cases hlen : 0 < l.length
  · by_cases hbc : st.brackCount = 0
    · have hstep : closeStep l st =
          { st with isTopLevel := "func ".data.isPrefixOf l ||
              "type ".data.isPrefixOf l || "import ".data.isPrefixOf l } := by
        unfold closeStep
        rw [if_pos hlen, if_neg hne, if_pos hbc]
      rw [hstep, if_pos ⟨hlen, hbc⟩]
      exact ⟨rfl, rfl, rfl, rfl⟩
    · have hstep : closeStep l st = st := by
        unfold closeStep
        rw [if_pos hlen, if_neg hne, if_neg hbc]
      rw [hstep, if_neg (fun hx => hbc (And.right hx))]
      exact ⟨rfl, rfl, rfl, rfl⟩
  · have hstep : closeStep l st = st := by
      unfold closeStep
      rw [if_neg hlen]
    rw [hstep, if_neg (fun hx => hlen (And.left hx))]
    exact ⟨rfl, rfl, rfl, rfl⟩

/-- C9 amended: a line whose TEXT content is empty or whitespace-only leaves
`brackCount`, `closingCh` and `brackOpenAt` unchanged, and it also leaves
`isTopLevel` unchanged unless the whitespace survives the space/tab left-trim
(it holds a newline or other vertical whitespace, as a blank line does) while
the depth is zero, in which case `isTopLevel` is reset to `false` and the
line is routed to the body buffer. The `closingCh` hypothesis states the
values the tracker actually uses. -/
theorem c9_whitespace_frame (n : Nat) (st : State)
    (hch : st.closingCh = ' ' ∨ st.closingCh = ')' ∨ st.closingCh = rbrace)
    (hws : (extractTxt ((st.chunks n).getD [])).all isGoSpace = true) :
    (processLine n st).2.brackCount = st.brackCount ∧
    (processLine n st).2.closingCh = st.closingCh ∧
    (processLine n st).2.brackOpenAt = st.brackOpenAt ∧
    (processLine n st).2.isTopLevel =
      (if 0 < (trimLeftSpaceTab (extractTxt ((st.chunks n).getD []))).length ∧
          st.brackCount = 0 then false else st.isTopLevel) := by
  unfold processLine
  rcases hc : st.chunks n with _ | chunks
  · simp [extractTxt, trimLeftSpaceTab]
  · rw [hc] at hws
    simp only [Option.getD_some] at hws ⊢
    have hl_all : (trimLeftSpaceTab (extractTxt chunks)).all isGoSpace = true :=
      all_dropWhile _ _ _ hws
    rw [trimSpace_all _ hl_all, openStep_nil]
    have hhead : ∀ c, (trimLeftSpaceTab (extractTxt chunks)).head? = some c →
        isGoSpace c = true ∧ (c = ' ' || c = '\t') = false := by
      intro c hch'
      refine ⟨?_, trimLeft_head _ c hch'⟩
      rcases hl : trimLeftSpaceTab (extractTxt chunks) with _ | ⟨c0, l0⟩
      · rw [hl] at hch'
        simp at hch'
      · rw [hl] at hch' hl_all
        simp only [List.head?_cons, Option.some.injEq] at hch'
        subst hch'
        simp only [List.all_cons, Bool.and_eq_true] at hl_all
        exact hl_all.1
    have hne : ∀ c d : Char,
        (trimLeftSpaceTab (extractTxt chunks)).head? = some c →
        isGoSpace d = false → ¬c = d := by
      intro c d hch' hd hcd
      obtain ⟨hcm, _⟩ := hhead c hch'
      rw [hcd] at hcm
      rw [hcm] at hd
      exact absurd hd (by simp)
    have hhne : ¬(trimLeftSpaceTab (extractTxt chunks)).head? =
        some st.closingCh := by
      intro habs
      obtain ⟨hcm, hcns⟩ := hhead st.closingCh habs
      rcases hch with h | h | h <;> rw [h] at hcm hcns
      · simp at hcns
      · exact absurd hcm (by decide)
      · exact absurd hcm (by decide)
    obtain ⟨f1, f2, f3, f4⟩ := closeStep_frame
      (trimLeftSpaceTab (extractTxt chunks))
      { st with
        pkgsToImport := chunks.foldl
          (fun pk c => if c.kind = KTEXT then inferPackages c.text pk else pk)
          st.pkgsToImport }
      hhne
    refine ⟨f1, f2, f3, ?_⟩
    rw [f4]
    dsimp only
    by_cases hcond : 0 < (trimLeftSpaceTab (extractTxt chunks)).length ∧
        st.brackCount = 0
    · rw [if_pos hcond, if_pos hcond]
      rcases hl : trimLeftSpaceTab (extractTxt chunks) with _ | ⟨c0, l0⟩
      · rw [hl] at hcond
        simp at hcond
      · have hh : (trimLeftSpaceTab (extractTxt chunks)).head? = some c0 := by
          rw [hl]
          rfl
        have hpf : ("func ".data.isPrefixOf (c0 :: l0)) = false :=
          isPrefixOf_cons_ne _ _ _ _
            (fun he => hne c0 'f' hh (by decide) he.symm)
        have hpt : ("type ".data.isPrefixOf (c0 :: l0)) = false :=
          isPrefixOf_cons_ne _ _ _ _
            (fun he => hne c0 't' hh (by decide) he.symm)
        have hpi : ("import ".data.isPrefixOf (c0 :: l0)) = false :=
          isPrefixOf_cons_ne _ _ _ _
            (fun he => hne c0 'i' hh (by decide) he.symm)
        simp [hpf, hpt, hpi]
    · rw [if_neg hcond, if_neg hcond]

/-- Witness for the amended C9: the state after line 1 of
`type T int\n\nx := 1\n` tracks no open bracket, line 2's TEXT content is
whitespace-only, and the theorem applies. -/
theorem c9_whitespace_frame_witness :
    ((stateAfterLines "type T int\n\nx := 1\n".data 1).getD
        initState).closingCh = ' ' ∧
    (extractTxt ((((stateAfterLines "type T int\n\nx := 1\n".data 1).getD
        initState).chunks 2).getD [])).all isGoSpace = true ∧
    ((processLine 2 ((stateAfterLines "type T int\n\nx := 1\n".data 1).getD
          initState)).2.brackCount =
        ((stateAfterLines "type T int\n\nx := 1\n".data 1).getD
          initState).brackCount ∧
      (processLine 2 ((stateAfterLines "type T int\n\nx := 1\n".data 1).getD
          initState)).2.closingCh =
        ((stateAfterLines "type T int\n\nx := 1\n".data 1).getD
          initState).closingCh ∧
      (processLine 2 ((stateAfterLines "type T int\n\nx := 1\n".data 1).getD
          initState)).2.brackOpenAt =
        ((stateAfterLines "type T int\n\nx := 1\n".data 1).getD
          initState).brackOpenAt ∧
      (processLine 2 ((stateAfterLines "type T int\n\nx := 1\n".data 1).getD
          initState)).2.isTopLevel =
        (if 0 < (trimLeftSpaceTab (extractTxt
              ((((stateAfterLines "type T int\n\nx := 1\n".data 1).getD
                initState).chunks 2).getD []))).length ∧
            ((stateAfterLines "type T int\n\nx := 1\n".data 1).getD
              initState).brackCount = 0
          then false
          else ((stateAfterLines "type T int\n\nx := 1\n".data 1).getD
            initState).isTopLevel)) :=
  ⟨by decide, by decide,
    c9_whitespace_frame 2
      ((stateAfterLines "type T int\n\nx := 1\n".data 1).getD initState)
      (Or.inl (by decide)) (by decide)⟩

theorem mem_insertPkg (p q : List Char) (l : List (List Char)) :
    p ∈ insertPkg q l ↔ p ∈ l ∨ p = q := by
  unfold insertPkg
  split
  · next hq =>
    constructor
    · exact Or.inl
    · rintro (h | rfl)
      · exact h
      · exact hq
  · simp

theorem nodup_insertPkg (q : List Char) (l : List (List Char))
    (h : l.Nodup) : (insertPkg q l).Nodup := by
  unfold insertPkg
  split
  · exact h
  · next hq =>
    rw [List.nodup_append]
    exact ⟨h, List.nodup_singleton q, by simpa using fun hmem => hq hmem⟩

theorem pkgFold_mono (ms : List (List Char)) (acc : List (List Char))
    (p : List Char) (h : p ∈ acc) :
    p ∈ ms.foldl (fun acc m =>
      match builtinLookup m.dropLast with
      | some importPkg => insertPkg importPkg acc
      | none => acc) acc := by
  induction ms generalizing acc with
  | nil => exact h
  | cons m ms ih =>
    rw [List.foldl_cons]
    apply ih
    rcases hb : builtinLookup m.dropLast with _ | ip
    · simpa [hb] using h
    · simp only [hb]
      exact (mem_insertPkg p ip acc).mpr (Or.inl h)

theorem pkgFold_nodup (ms : List (List Char)) (acc : List (List Char))
    (h : acc.Nodup) :
    (ms.foldl (fun acc m =>
      match builtinLookup m.dropLast with
      | some importPkg => insertPkg importPkg acc
      | none => acc) acc).Nodup := by
  induction ms generalizing acc with
  | nil => exact h
  | cons m ms ih =>
    rw [List.foldl_cons]
    apply ih
    rcases hb : builtinLookup m.dropLast with _ | ip
    · simpa [hb] using h
    · simp only [hb]
      exact nodup_insertPkg ip acc h

theorem pkgFold_mem (ms : List (List Char)) (acc : List (List Char))
    (p : List Char)
    (h : p ∈ ms.foldl (fun acc m =>
      match builtinLookup m.dropLast with
      | some importPkg => insertPkg importPkg acc
      | none => acc) acc) :
    p ∈ acc ∨ ∃ m ∈ ms, builtinLookup m.dropLast = some p := by
  induction ms generalizing acc with
  | nil => exact Or.inl h
  | cons m ms ih =>
    rw [List.foldl_cons] at h
    rcases ih _ h with h1 | ⟨m', hm', hb'⟩
    · rcases hb : builtinLookup m.dropLast with _ | ip
      · rw [hb] at h1
        exact Or.inl h1
      · rw [hb] at h1
        rcases (mem_insertPkg p ip acc).mp h1 with h2 | rfl
        · exact Or.inl h2
        · exact Or.inr ⟨m, List.mem_cons_self _ _, hb⟩
    · exact Or.inr ⟨m', List.mem_cons_of_mem _ hm', hb'⟩

theorem pkgFold_adds (ms : List (List Char)) (acc : List (List Char))
    (m p : List Char) (hm : m ∈ ms) (hb : builtinLookup m.dropLast = some p) :
    p ∈ ms.foldl (fun acc m =>
      match builtinLookup m.dropLast with
      | some importPkg => insertPkg importPkg acc
      | none => acc) acc := by
  induction ms generalizing acc with
  | nil => exact absurd hm (by simp)
  | cons m0 ms ih =>
    rw [List.foldl_cons]
    rcases List.mem_cons.mp hm with rfl | hm'
    · apply pkgFold_mono
      rw [hb]
      exact (mem_insertPkg p p acc).mpr (Or.inr rfl)
    · exact ih _ hm'

theorem inferPackages_mono (code : List Char) (pkgs : List (List Char))
    (p : List Char) (h : p ∈ pkgs) : p ∈ inferPackages code pkgs :=
  pkgFold_mono (pkgPatFindAll code) pkgs p h

theorem inferPackages_nodup (code : List Char) (pkgs : List (List Char))
    (h : pkgs.Nodup) : (inferPackages code pkgs).Nodup :=
  pkgFold_nodup (pkgPatFindAll code) pkgs h

theorem inferPackages_adds (code : List Char) (pkgs : List (List Char))
    (q p : List Char) (hq : q ∈ qualifiersOf code)
    (hb : builtinLookup q = some p) : p ∈ inferPackages code pkgs := by
  unfold qualifiersOf at hq
  obtain ⟨m, hm, rfl⟩ := List.mem_map.mp hq
  exact pkgFold_adds (pkgPatFindAll code) pkgs m p hm hb

theorem closeStep_pkgs (l : List Char) (st : State) :
    (closeStep l st).pkgsToImport = st.pkgsToImport := by
  unfold closeStep
  split
  · split
    · dsimp only
      split <;> rfl
    · split <;> rfl
  · rfl

theorem openStep_pkgs (l : List Char) (st : State) :
    (openStep l st).pkgsToImport = st.pkgsToImport := by
  unfold openStep
  split
  · split
    · rfl
    · split <;> rfl
  · rfl

theorem processLine_pkgs_nodup (n : Nat) (st : State)
    (h : st.pkgsToImport.Nodup) : (processLine n st).2.pkgsToImport.Nodup := by
  unfold processLine
  rcases hc : st.chunks n with _ | chunks
  · exact h
  · rw [openStep_pkgs, closeStep_pkgs]
    show (chunks.foldl
      (fun pk c => if c.kind = KTEXT then inferPackages c.text pk else pk)
      st.pkgsToImport).Nodup
    clear hc
    induction chunks generalizing st with
    | nil => exact h
    | cons c cs ih =>
      rw [List.foldl_cons]
      by_cases hk : c.kind = KTEXT
      · rw [if_pos hk]
        have := ih { st with
          pkgsToImport := inferPackages c.text st.pkgsToImport }
          (inferPackages_nodup _ _ h)
        exact this
      · rw [if_neg hk]
        exact ih st h

theorem processLines_pkgs_nodup (lns : List Nat)
    (acc : List Char × List Char × State) (h : acc.2.2.pkgsToImport.Nodup) :
    (processLines lns acc).2.2.pkgsToImport.Nodup := by
  induction lns generalizing acc with
  | nil => exact h
  | cons ln lns ih =>
    unfold processLines at ih ⊢
    rw [List.foldl_cons]
    apply ih
    obtain ⟨tl, ntl, st⟩ := acc
    dsimp only
    split
    · exact processLine_pkgs_nodup ln st h
    · exact processLine_pkgs_nodup ln st h

theorem buildState_pkgs (code : List Char) (st : State)
    (h : buildState code = .ok st) : st.pkgsToImport = [] := by
  unfold buildState at h
  rcases hc : chunksOf code with f | cs <;> rw [hc] at h
  · simp at h
  · simp only [Except.ok.injEq] at h
    subst h
    have : ∀ (cs : List Chunk) (s : State),
        (cs.foldl addChunk s).pkgsToImport = s.pkgsToImport := by
      intro cs
      induction cs with
      | nil => intro s; rfl
      | cons c cs ih =>
        intro s
        rw [List.foldl_cons]
        rw [ih (addChunk s c)]
        rfl
    rw [this]
    rfl

theorem nodup_count_eq_one (l : List (List Char)) (p : List Char)
    (hnd : l.Nodup) (hp : p ∈ l) : l.count p = 1 := by
  induction l with
  | nil => exact absurd hp (by simp)
  | cons a l ih =>
    rw [List.nodup_cons] at hnd
    rw [List.count_cons]
    rcases List.mem_cons.mp hp with rfl | hp'
    · have hz : l.count p = 0 := by
        rw [List.count_eq_zero]
        exact hnd.1
      simp [hz]
    · have hne : ¬a = p := fun he => hnd.1 (he ▸ hp')
      have hb : (a == p) = false := beq_eq_false_iff_ne.mpr hne
      rw [ih hnd.2 hp', hb]
      rfl

/-- C8: import idempotence. First part: the pending-import set produced by a
successful `partition` is duplicate-free, so it holds exactly one entry per
canonical path it contains. Second part, at the granularity the claim talks
about: feeding any number of lines through `inferPackages`, a package whose
qualifier is referenced on at least one line ends up with exactly one entry
for its canonical path, however many lines reference it. -/
theorem c8_import_idempotent :
    (∀ (code t b : List Char) (pkgs : List (List Char)),
      partition code = .ok (t, b, pkgs) → ∀ p ∈ pkgs, pkgs.count p = 1) ∧
    (∀ (lines : List (List Char)) (q p : List Char),
      builtinLookup q = some p → (∃ l ∈ lines, q ∈ qualifiersOf l) →
      (lines.foldl (fun acc l => inferPackages l acc) []).count p = 1) := by
  constructor
  · intro code t b pkgs hpart p hp
    unfold partition at hpart
    rcases hb : buildState code with f | st <;> rw [hb] at hpart
    · simp at hpart
    · dsimp only at hpart
      by_cases hbr : 0 < (processLines (List.range' 1 st.lineNum)
          ([], [], st)).2.2.brackCount
      · rw [if_pos hbr] at hpart
        simp at hpart
      · rw [if_neg hbr] at hpart
        simp only [Except.ok.injEq, Prod.mk.injEq] at hpart
        obtain ⟨-, -, hpk⟩ := hpart
        subst hpk
        have hnd : (processLines (List.range' 1 st.lineNum)
            ([], [], st)).2.2.pkgsToImport.Nodup := by
          apply processLines_pkgs_nodup
          rw [buildState_pkgs code st hb]
          exact List.nodup_nil
        exact nodup_count_eq_one _ p hnd hp
  · intro lines q p hq href
    have hnd : ∀ (ls : List (List Char)) (acc : List (List Char)), acc.Nodup →
        (ls.foldl (fun acc l => inferPackages l acc) acc).Nodup := by
      intro ls
      induction ls with
      | nil => intro acc h; exact h
      | cons l ls ih =>
        intro acc h
        rw [List.foldl_cons]
        exact ih _ (inferPackages_nodup l acc h)
    have hmem : ∀ (ls : List (List Char)) (acc : List (List Char)),
        (∃ l ∈ ls, q ∈ qualifiersOf l) ∨ p ∈ acc →
        p ∈ ls.foldl (fun acc l => inferPackages l acc) acc := by
      intro ls
      induction ls with
      | nil =>
        intro acc h
        rcases h with ⟨l, hl, _⟩ | h
        · exact absurd hl (by simp)
        · exact h
      | cons l ls ih =>
        intro acc h
        rw [List.foldl_cons]
        rcases h with ⟨l', hl', hql'⟩ | h
        · rcases List.mem_cons.mp hl' with rfl | hl''
          · exact ih _ (Or.inr (inferPackages_adds l' acc q p hql' hq))
          · exact ih _ (Or.inl ⟨l', hl'', hql'⟩)
        · exact ih _ (Or.inr (inferPackages_mono l acc p h))
    exact nodup_count_eq_one _ p (hnd lines [] List.nodup_nil)
      (hmem lines [] (Or.inl href))

/-- Witness for C8: `fmt` referenced on two lines yields a single entry for
`fmt`, both through `partition` and through the line fold. -/
theorem c8_import_idempotent_witness :
    partition "fmt.Println(1)\nfmt.Printf(2)\n".data =
      .ok (([], (partition "fmt.Println(1)\nfmt.Printf(2)\n".data).toOption.getD
          ([], [], []) |>.2.1, ["fmt".data])) ∧
    (["fmt".data] : List (List Char)).count "fmt".data = 1 ∧
    builtinLookup "fmt".data = some "fmt".data ∧
    (∃ l ∈ ["fmt.Println x".data, "fmt.Printf y".data],
      "fmt".data ∈ qualifiersOf l) ∧
    (["fmt.Println x".data, "fmt.Printf y".data].foldl
      (fun acc l => inferPackages l acc) []).count "fmt".data = 1 := by
  refine ⟨by rfl, ?_, by decide, by decide, ?_⟩
  · exact c8_import_idempotent.1 "fmt.Println(1)\nfmt.Printf(2)\n".data _ _ _
      (by rfl) "fmt".data (by decide)
  · exact c8_import_idempotent.2 ["fmt.Println x".data, "fmt.Printf y".data]
      "fmt".data "fmt".data (by decide) (by decide)

theorem pkgScan_len (fuel : Nat) (w : Bool) (s : List Char) (m : List Char)
    (h : m ∈ pkgScan fuel w s) : 3 ≤ m.length := by
  induction fuel generalizing w s with
  | zero =>
    rw [pkgScan] at h
    exact absurd h (by simp)
  | succ fuel ih =>
    rcases s with _ | ⟨c, rest⟩
    · rw [pkgScan] at h
      exact absurd h (by simp)
    · rw [pkgScan] at h
      split at h
      · dsimp only at h
        split at h
        · next hcond =>
          rcases List.mem_cons.mp h with rfl | h'
          · simp only [Bool.and_eq_true, decide_eq_true_eq] at hcond
            simp only [List.length_cons, List.length_append,
              List.length_singleton]
            omega
          · exact ih _ _ h'
        · exact ih _ _ h
      · exact ih _ _ h

/-- C10: import inference only reacts to qualifiers of at least two
characters — every match of `pkgPat` has length at least three (qualifier
plus dot), so every entry that `inferPackages` adds beyond the incoming set
stems from a qualifier of length at least two; an input whose only
package-like reference is a single character followed by a dot adds nothing
for it. -/
theorem c10_qualifier_min_length (code : List Char) (pkgs : List (List Char))
    (p : List Char) (h : p ∈ inferPackages code pkgs) :
    p ∈ pkgs ∨ ∃ q, q ∈ qualifiersOf code ∧ 2 ≤ q.length ∧
      builtinLookup q = some p := by
  rcases pkgFold_mem (pkgPatFindAll code) pkgs p h with h1 | ⟨m, hm, hb⟩
  · exact Or.inl h1
  · refine Or.inr ⟨m.dropLast, List.mem_map.mpr ⟨m, hm, rfl⟩, ?_, hb⟩
    have h3 : 3 ≤ m.length := pkgScan_len _ _ _ m hm
    rw [List.length_dropLast]
    omega

/-- Witness for C10: `fmt.Println` adds the canonical path `fmt` through the
two-character-or-longer qualifier `fmt`. -/
theorem c10_qualifier_min_length_witness :
    "fmt".data ∈ inferPackages "fmt.Println".data [] ∧
    ("fmt".data ∈ ([] : List (List Char)) ∨
      ∃ q, q ∈ qualifiersOf "fmt.Println".data ∧ 2 ≤ q.length ∧
        builtinLookup q = some "fmt".data) :=
  ⟨by decide,
    c10_qualifier_min_length "fmt.Println".data [] "fmt".data (by decide)⟩

/-- C6: the compile-execute-repair loop performs one or two compile attempts
(never three), and a second attempt happens exactly when the first attempt
failed (non-empty error) and the diagnostic repair removed at least one
inferred import (`repairImports` reports `true` precisely when it deleted a
present entry). Quantified over every behaviour of the external
compile-and-run collaborator. -/
theorem c6_retry_bound (runO : List Char → List Char × List Char)
    (topLevel nonTopLevel : List Char) (pkgsToImport : List (List Char)) :
    ((buildAndExec runO topLevel nonTopLevel pkgsToImport).2 = 1 ∨
      (buildAndExec runO topLevel nonTopLevel pkgsToImport).2 = 2) ∧
    ((buildAndExec runO topLevel nonTopLevel pkgsToImport).2 = 2 ↔
      (¬(runO (buildMain topLevel nonTopLevel
          (insertPkg "fmt".data pkgsToImport))).2 = [] ∧
        (repairImports (runO (buildMain topLevel nonTopLevel
            (insertPkg "fmt".data pkgsToImport))).2
          (insertPkg "fmt".data pkgsToImport)).1 = true)) := by
  unfold buildAndExec
  dsimp only
  by_cases herr : (runO (buildMain topLevel nonTopLevel
      (insertPkg "fmt".data pkgsToImport))).2 = []
  · simp [herr]
  · by_cases hdup : (repairImports (runO (buildMain topLevel nonTopLevel
        (insertPkg "fmt".data pkgsToImport))).2
        (insertPkg "fmt".data pkgsToImport)).1 = true
    · simp [herr, hdup]
    · simp [herr, hdup]

/-- C5: when the input does not begin with a package declaration and the
chunker hits a raw newline inside a quoted literal, `Eval` returns empty
output with a non-empty error string, having made no compile attempt: the
fault is caught by the recovery handler, never escaping to the caller. -/
theorem c5_fatal_newline (runO : List Char → List Char × List Char)
    (code : List Char) (pos : Nat)
    (hpkg : hasPackageDecl code = false)
    (hfault : partition (expandAliases code) = .error (.newlineInString pos)) :
    (Eval runO code).1.1 = [] ∧ ¬(Eval runO code).1.2 = [] ∧
      (Eval runO code).2 = 0 := by
  unfold Eval
  simp only [hpkg, Bool.false_eq_true, if_false]
  rw [hfault]
  refine ⟨rfl, ?_, rfl⟩
  show ¬("1:Newline in string @ ".data ++ [Char.ofNat pos]) = []
  simp

/-- Witness for C5: the input `x := "a\nb"\n` carries a raw newline inside a
double-quoted literal; the fault position the chunker reports is 8. -/
theorem c5_fatal_newline_witness :
    hasPackageDecl "x := \"a\nb\"\n".data = false ∧
    partition (expandAliases "x := \"a\nb\"\n".data) =
      .error (.newlineInString 8) ∧
    ((Eval (fun _ => ([], [])) "x := \"a\nb\"\n".data).1.1 = [] ∧
      ¬(Eval (fun _ => ([], [])) "x := \"a\nb\"\n".data).1.2 = [] ∧
      (Eval (fun _ => ([], [])) "x := \"a\nb\"\n".data).2 = 0) :=
  ⟨by decide, by rfl,
    c5_fatal_newline (fun _ => ([], [])) "x := \"a\nb\"\n".data 8 (by decide)
      (by rfl)⟩
